import Mathlib

/-!
Verification of the deal-stage progression / probability engine of
`scripts/analytics/pipeline-probs.js` (the core selected by the spec).

The JavaScript source is shallowly embedded: JS object-dictionaries become
functions with a default (`String → Nat` with default `0`, or
`String → Option β` with default `none`, matching `obj[k] || 0` reads and
`obj[k] = v` writes), JS numbers carrying money/probabilities become `ℚ`,
timestamps become `Int` (milliseconds), and the loosely-typed
`hs_is_closed_won` property becomes an explicit `JSVal` so that the strict
equality `=== 'true'` of the source keeps its JavaScript meaning.
-/

namespace PipelineProbs

/-- A loosely-typed JavaScript value as it can appear in the
`hs_is_closed_won` deal property: a string, a boolean, or null/undefined.
JS strict equality `===` is modelled by equality on this type (values of
different shapes are never strictly equal). -/
inductive JSVal where
  | str (s : String)
  | bool (b : Bool)
  | null
deriving DecidableEq

/-- One record of `propertiesWithHistory.dealstage`: a stage value and the
timestamp (`new Date(h.timestamp).getTime()`, in ms) at which it was set. -/
structure HistEntry where
  value : String
  timestamp : Int
deriving DecidableEq

/-- A deal as consumed by the core: `properties.createdate` (parsed to ms),
`properties.pipeline` (possibly missing), `properties.hs_is_closed_won`
(loosely typed), `properties.amount` already passed through
`parseFloat(amount || '0') || 0` parsing (`none` models the
absent/blank/non-numeric cases that parse to `0`), and the
`propertiesWithHistory.dealstage` list (empty when missing). -/
structure Deal where
  createdate : Int
  pipeline : Option String
  hs_is_closed_won : JSVal
  amount : Option ℚ
  dealstage_history : List HistEntry
deriving DecidableEq

/-- JS truthiness of a string: only the empty string is falsy. -/
def strTruthy (s : String) : Bool := !(s == "")

/-- JS truthiness of a string-or-null/undefined value. -/
def optTruthy : Option String → Bool
  | none => false
  | some s => strTruthy s

/-- `toLowerCase` of JS, character by character (the labels and aliases of
this pipeline domain are ASCII, where this agrees with JS). -/
def lowerStr (s : String) : String := ⟨s.data.map Char.toLower⟩

/-- `pre.isPrefix hay` on character lists (used to model
`String.prototype.includes`). -/
def listPre : List Char → List Char → Bool
  | [], _ => true
  | _ :: _, [] => false
  | a :: as, b :: bs => a == b && listPre as bs

/-- `needle` occurs as a contiguous run inside `hay`
(models JS `hay.includes(needle)` on the underlying characters). -/
def listSub (needle : List Char) : List Char → Bool
  | [] => listPre needle []
  | c :: t => listPre needle (c :: t) || listSub needle t

/-- `hay.includes(needle)` of JS strings. -/
def strIncludes (hay needle : String) : Bool := listSub needle.data hay.data

/-- `FRIENDLY_ORDER` constant of the source. -/
def FRIENDLY_ORDER : List String :=
  ["inbox", "sequenced", "engaging", "responsive", "advising",
   "negotiation", "contact", "closedwon"]

/-- `DEFAULT_ALIASES` constant of the source, as an association list. -/
def DEFAULT_ALIASES : List (String × List String) :=
  [("inbox", ["inbox", "sql", "appointmentscheduled"]),
   ("sequenced", ["sequenced"]),
   ("engaging", ["engaging", "presentationscheduled", "email opened", "clicked"]),
   ("responsive", ["responsive", "replied", "decisionmakerboughtin"]),
   ("advising", ["advising"]),
   ("negotiation", ["negotiation", "contractsent"]),
   ("contact", ["contact", "deposit", "quote accepted", "qualifiedtobuy"]),
   ("closedwon", ["closedwon", "closed won", "won"])]

/-- One `{id, label}` stage record of a pipeline definition. -/
structure StageDef where
  id : String
  label : String
deriving DecidableEq

/-- One pipeline of the catalog returned by the pipeline source. -/
structure Pipeline where
  id : String
  stages : List StageDef
deriving DecidableEq

/-- `stageList` construction of `resolveStages`:
`{ id: s.id, label: (s.label || '').toLowerCase() }`. -/
def stageEntryOf (s : StageDef) : String × String := (s.id, lowerStr s.label)

/-- `findIdByAliases` of the source: for each alias in order, find the first
stage whose (lowercased) label contains the lowercased alias; return its id,
or null (`none`) when no alias matches. Note that a found stage object is
always truthy in JS, so the id is returned even when it is `""`. -/
def findIdByAliases (stageList : List (String × String)) : List String → Option String
  | [] => none
  | a :: rest =>
    match stageList.find? (fun s => strIncludes s.2 (lowerStr a)) with
    | some hit => some hit.1
    | none => findIdByAliases stageList rest

/-- The `mapped` list of `resolveStages`: for each canonical key, resolve via
`aliasMap[key] || [key]` and push the id only when truthy (`if (id)`). -/
def mappedStages (stageList : List (String × String)) (friendlyOrder : List String)
    (aliasMap : List (String × List String)) : List String :=
  friendlyOrder.filterMap (fun key =>
    match findIdByAliases stageList ((aliasMap.lookup key).getD [key]) with
    | some id => if strTruthy id then some id else none
    | none => none)

/-- `closedWonId` of the source: `findIdByAliases(aliasMap.closedwon || ['closedwon'])`. -/
def closedWonIdOf (stageList : List (String × String))
    (aliasMap : List (String × List String)) : Option String :=
  findIdByAliases stageList ((aliasMap.lookup "closedwon").getD ["closedwon"])

/-- The pipe-independent tail of `resolveStages`:
`const stages = mapped.filter(s => s !== closedWonId); if (closedWonId) stages.push(closedWonId);`
returning `{ stages, wonStage: closedWonId || stages[stages.length - 1] }`
(`wonStage` is `none` exactly when it would be `undefined` in JS). -/
def resolveCore (stageList : List (String × String)) (friendlyOrder : List String)
    (aliasMap : List (String × List String)) : List String × Option String :=
  let mapped := mappedStages stageList friendlyOrder aliasMap
  match closedWonIdOf stageList aliasMap with
  | some cw =>
    if strTruthy cw then
      (mapped.filter (fun s => s ≠ cw) ++ [cw], some cw)
    else
      (mapped.filter (fun s => s ≠ cw), (mapped.filter (fun s => s ≠ cw)).getLast?)
  | none => (mapped, mapped.getLast?)

/-- `const pipe = pipelineId ? pipelines.find(p => p.id === pipelineId) : pipelines[0]`. -/
def selectPipe (pipelines : List Pipeline) (pipelineId : Option String) : Option Pipeline :=
  match pipelineId with
  | some v => if strTruthy v then pipelines.find? (fun p => p.id = v) else pipelines.head?
  | none => pipelines.head?

/-- `resolveStages` of the source, with the catalog fetch made explicit:
throws (`Except.error`) when no pipeline is found, otherwise resolves the
canonical funnel against the found pipeline's stages. -/
def resolveStages (pipelines : List Pipeline) (pipelineId : Option String)
    (friendlyOrder : List String) (aliasMap : List (String × List String)) :
    Except String (List String × Option String) :=
  match selectPipe pipelines pipelineId with
  | none => .error "No deal pipeline found for stage resolution"
  | some pipe => .ok (resolveCore (pipe.stages.map stageEntryOf) friendlyOrder aliasMap)

/-- The per-deal filter of `dealsCohort`:
`created >= start && created <= end` and then `!pipeline || d.properties.pipeline === pipeline`. -/
def cohortKeep (start stop : Int) (pipeline : Option String) (d : Deal) : Bool :=
  (decide (start ≤ d.createdate) && decide (d.createdate ≤ stop)) &&
    (!(optTruthy pipeline) || d.pipeline == pipeline)

/-- `dealsCohort` of the source with the upstream pagination made explicit:
the store yields a finite list of pages and the generator yields, page by
page, exactly the deals passing `cohortKeep`. -/
def dealsCohort (pages : List (List Deal)) (start stop : Int)
    (pipeline : Option String) : List Deal :=
  pages.foldl (fun acc page => acc ++ page.filter (cohortKeep start stop pipeline)) []

/-! ### computeProgression -/

/-- The `(v, t)` pairs of a deal's raw stage history
(`hist.map(h => ({ v: h.value, t: new Date(h.timestamp).getTime() }))`). -/
def histPairs (d : Deal) : List (String × Int) :=
  d.dealstage_history.map (fun h => (h.value, h.timestamp))

/-- Comparator of the source's `.sort((a, b) => a.t - b.t)`: ascending by
timestamp. -/
def histLe (a b : String × Int) : Prop := a.2 ≤ b.2

instance : DecidableRel histLe := fun a b => inferInstanceAs (Decidable (a.2 ≤ b.2))

instance : IsTotal (String × Int) histLe := ⟨fun a b => le_total a.2 b.2⟩

instance : IsTrans (String × Int) histLe := ⟨fun _ _ _ h1 h2 => le_trans h1 h2⟩

/-- The timestamp-sorted history of a deal (JS `Array.prototype.sort` is
stable and insertion sort is a stable sort, so ties keep emission order). -/
def sortedHist (d : Deal) : List (String × Int) :=
  List.insertionSort histLe (histPairs d)

/-- `reachedSet` of `computeProgression`: the stage values occurring in the
(sorted) history; JS `Set.has` is list membership here. -/
def reachedSetOf (d : Deal) : List String := (sortedHist d).map Prod.fst

/-- `m[k] = (m[k] || 0) + 1` on a counting dictionary. -/
def updateCount (m : String → Nat) (s : String) : String → Nat :=
  fun k => if k = s then m k + 1 else m k

/-- Per-deal update of `reachedCounts`:
`for (const s of stages) if (reachedSet.has(s)) reachedCounts[s]++`. -/
def reachedStep (stages : List String) (m : String → Nat) (d : Deal) : String → Nat :=
  stages.foldl (fun m s => if (reachedSetOf d).contains s then updateCount m s else m) m

/-- `reachedCounts` of `computeProgression` after all deals (keys start at 0). -/
def reachedCountsF (stages : List String) (deals : List Deal) : String → Nat :=
  deals.foldl (reachedStep stages) (fun _ => 0)

/-- `hist.find(h => h.v === s)?.t` — timestamp of the first entry of the
given (sorted) history holding stage `s`. -/
def firstTs (hist : List (String × Int)) (s : String) : Option Int :=
  (hist.find? (fun h => h.1 == s)).map Prod.snd

/-- The progression test of the source for one deal and one stage pair:
`tsS != null && tsS1 != null && tsS1 > tsS` over the sorted history. -/
def progressedCond (d : Deal) (s s1 : String) : Bool :=
  match firstTs (sortedHist d) s, firstTs (sortedHist d) s1 with
  | some tsS, some tsS1 => decide (tsS < tsS1)
  | _, _ => false

/-- The template-literal dictionary key `` `${s}->${s1}` ``. -/
def pairKey (s s1 : String) : String := s ++ "->" ++ s1

/-- The adjacent pairs `(stages[i], stages[i+1])` for `0 ≤ i < stages.length - 1`. -/
def adjPairs : List String → List (String × String)
  | a :: b :: t => (a, b) :: adjPairs (b :: t)
  | _ => []

/-- Per-deal update of `progressedCounts`: each adjacent pair whose
progression test fires increments the entry at its pair key. -/
def progStep (stages : List String) (m : String → Nat) (d : Deal) : String → Nat :=
  (adjPairs stages).foldl
    (fun m p => if progressedCond d p.1 p.2 then updateCount m (pairKey p.1 p.2) else m) m

/-- `progressedCounts` of `computeProgression` after all deals. -/
def progressedCountsF (stages : List String) (deals : List Deal) : String → Nat :=
  deals.foldl (progStep stages) (fun _ => 0)

/-- One `progression[key]` record:
`{ from_reached, progressed, p_advance }`. -/
structure Edge where
  from_reached : Nat
  progressed : Nat
  p_advance : ℚ
deriving DecidableEq

/-- The record the final loop of `computeProgression` computes for the
adjacent pair `(s, s1)`: `fromReached = reachedCounts[s] || 0`,
`progressed = progressedCounts[key] || 0`,
`p_advance = fromReached ? progressed / fromReached : 0`. -/
def edgeFor (stages : List String) (deals : List Deal) (s s1 : String) : Edge :=
  let fromReached := reachedCountsF stages deals s
  let progressed := progressedCountsF stages deals (pairKey s s1)
  { from_reached := fromReached
    progressed := progressed
    p_advance := if fromReached = 0 then 0 else (progressed : ℚ) / (fromReached : ℚ) }

/-- `m[k] = v` on an object-dictionary. -/
def setKey {β : Type} (m : String → Option β) (k : String) (v : β) : String → Option β :=
  fun k2 => if k2 = k then some v else m k2

/-- The empty object-dictionary. -/
def emptyDict {β : Type} : String → Option β := fun _ => none

/-- The `progression` dictionary of the output: for each adjacent pair in
order, `progression[key] = {from_reached, progressed, p_advance}` (a later
pair overwrites an earlier one on a key collision, as in JS). -/
def progressionDict (stages : List String) (deals : List Deal) : String → Option Edge :=
  (adjPairs stages).foldl
    (fun m p => setKey m (pairKey p.1 p.2) (edgeFor stages deals p.1 p.2)) emptyDict

/-- The `stageLoss` dictionary of the output: `stageLoss[s] = 1 - p_advance`
for each adjacent pair `(s, s1)` in order. -/
def stageLossDict (stages : List String) (deals : List Deal) : String → Option ℚ :=
  (adjPairs stages).foldl
    (fun m p => setKey m p.1 (1 - (edgeFor stages deals p.1 p.2).p_advance)) emptyDict

/-! ### computeStats -/

/-- The raw stage values of a deal's history (`hist.map(h => h.value)`). -/
def histValues (d : Deal) : List String := d.dealstage_history.map HistEntry.value

/-- `!hist.length` guard: the deal carries at least one history record. -/
def dealActive (d : Deal) : Bool := !d.dealstage_history.isEmpty

/-- The `ever` set of `computeStats` (`new Set(hist.map(h => h.value))`),
as the duplicate-free list of values; only counted once per distinct value. -/
def everList (d : Deal) : List String := (histValues d).dedup

/-- The won test of `computeStats`:
`d.properties.hs_is_closed_won === 'true' || ever.has(wonStage)`. -/
def isWonDeal (wonStage : String) (d : Deal) : Bool :=
  (d.hs_is_closed_won == JSVal.str "true") || (histValues d).contains wonStage

/-- `parseFloat(d.properties.amount || '0') || 0` (`none` parses to `0`). -/
def amt (d : Deal) : ℚ := d.amount.getD 0

/-- Accumulator of the main loop of `computeStats`. -/
structure StatsState where
  reached : String → Nat
  wonAfter : String → Nat
  wonCount : Nat
  wonSum : ℚ

/-- One iteration of the main loop of `computeStats` over a deal: skip on
empty history, bump `reached` on every stage ever reached, and if the deal
is won also bump `wonAfter`, `wonCount`, and (only when `amount > 0`)
`wonSum`. -/
def statsStep (wonStage : String) (st : StatsState) (d : Deal) : StatsState :=
  if d.dealstage_history.isEmpty then st
  else
    let ever := everList d
    let reached1 := ever.foldl updateCount st.reached
    if isWonDeal wonStage d then
      { reached := reached1
        wonAfter := ever.foldl updateCount st.wonAfter
        wonCount := st.wonCount + 1
        wonSum := if decide (0 < amt d) then st.wonSum + amt d else st.wonSum }
    else
      { st with reached := reached1 }

/-- The state of `computeStats` after its main loop over all deals. -/
def computeStatsCore (wonStage : String) (deals : List Deal) : StatsState :=
  deals.foldl (statsStep wonStage) ⟨fun _ => 0, fun _ => 0, 0, 0⟩

/-- `avgWon` of `computeStats`: the numeric override when supplied, else
`wonCount ? wonSum / wonCount : 0`. -/
def avgWonOf (wonStage : String) (deals : List Deal) (avgWonOverride : Option ℚ) : ℚ :=
  match avgWonOverride with
  | some v => v
  | none =>
    let st := computeStatsCore wonStage deals
    if st.wonCount = 0 then 0 else st.wonSum / (st.wonCount : ℚ)

/-- One `completion[s]` record. -/
structure Completion where
  reached : Nat
  wonAfter : Nat
  p_win : ℚ
  euro_value : ℚ
deriving DecidableEq

/-- The record `computeStats` stores at `completion[s]`:
`r = reached[s] || 0`, `w = wonAfter[s] || 0`,
`p_win = r ? w / r : 0`, `euro_value = avgWon * p_win`. -/
def completionFor (wonStage : String) (deals : List Deal) (aw : ℚ) (s : String) : Completion :=
  let st := computeStatsCore wonStage deals
  let r := st.reached s
  let w := st.wonAfter s
  let pWin : ℚ := if r = 0 then 0 else (w : ℚ) / (r : ℚ)
  { reached := r, wonAfter := w, p_win := pWin, euro_value := aw * pWin }

/-- The `completion` dictionary: one record per stage of `stages`, in order. -/
def completionDict (stages : List String) (wonStage : String) (deals : List Deal)
    (aw : ℚ) : String → Option Completion :=
  stages.foldl (fun m s => setKey m s (completionFor wonStage deals aw s)) emptyDict

/-- The full return value of `computeStats`:
`{ avgWon, reached, wonAfter, completion, progression, stageLoss }`. -/
structure StatsOutput where
  avgWon : ℚ
  reached : String → Nat
  wonAfter : String → Nat
  completion : String → Option Completion
  progression : String → Option Edge
  stageLoss : String → Option ℚ

/-- `computeStats({deals, stages, wonStage, avgWonOverride})` assembled from
its pieces, delegating to `computeProgression` for `progression`/`stageLoss`. -/
def computeStats (deals : List Deal) (stages : List String) (wonStage : String)
    (avgWonOverride : Option ℚ) : StatsOutput :=
  let aw := avgWonOf wonStage deals avgWonOverride
  { avgWon := aw
    reached := (computeStatsCore wonStage deals).reached
    wonAfter := (computeStatsCore wonStage deals).wonAfter
    completion := completionDict stages wonStage deals aw
    progression := progressionDict stages deals
    stageLoss := stageLossDict stages deals }

/-- `Modelled from the spec:` the "earliest timestamp at which a stage
appears" in a deal's raw (unsorted) stage history — the minimum of the
timestamps of the history records holding that stage, `none` when the stage
never appears. The claim about `computeProgression` is stated against this. -/
def earliestStageTs (d : Deal) (s : String) : Option Int :=
  (((histPairs d).filter (fun h => h.1 == s)).map Prod.snd).min?

/-- The pair keys `` `${s}->${s1}` `` of the adjacent stage pairs are
collision-free. This holds for every real funnel (HubSpot stage ids never
contain `"->"`) but not for arbitrary stage lists. -/
def KeyInj (stages : List String) : Prop :=
  ∀ p ∈ adjPairs stages, ∀ q ∈ adjPairs stages,
    pairKey p.1 p.2 = pairKey q.1 q.2 → p = q

instance (stages : List String) : Decidable (KeyInj stages) := by
  unfold KeyInj
  infer_instance

/-! ### Spec-side characterisations and concrete example data -/

/-- `Modelled from the spec:` the sum of amounts over the won deals (with
non-empty history) whose amount is positive — the numerator of the average
both spec and code intend. -/
def wonSumSpec (wonStage : String) (deals : List Deal) : ℚ :=
  ((deals.filter (fun d => dealActive d && isWonDeal wonStage d && decide (0 < amt d))).map
    amt).sum

/-- The number of won deals with non-empty history, regardless of amount —
the denominator the code actually uses. -/
def wonCountAll (wonStage : String) (deals : List Deal) : Nat :=
  (deals.filter (fun d => dealActive d && isWonDeal wonStage d)).length

/-- `Modelled from the spec:` the number of won deals (with non-empty
history) whose amount is positive — the denominator the claim asserts. -/
def posWonCount (wonStage : String) (deals : List Deal) : Nat :=
  (deals.filter (fun d => dealActive d && isWonDeal wonStage d && decide (0 < amt d))).length

/-- `Modelled from the spec:` the spec declares `isClosedWon` a boolean
flag; this reads the truth of that flag out of whichever representation the
source supplied. -/
def flagIsTrue : JSVal → Bool
  | .bool b => b
  | .str s => s == "true"
  | .null => false

/-- A won deal with amount 100. -/
def dealA : Deal := ⟨0, none, JSVal.null, some 100, [⟨"w", 0⟩]⟩

/-- A won deal with amount 0 (blank/zero amount). -/
def dealB : Deal := ⟨0, none, JSVal.null, some 0, [⟨"w", 0⟩]⟩

/-- A deal whose `hs_is_closed_won` is the boolean `true` (not the string
`'true'`) and whose history never shows the won stage. -/
def dealBool : Deal := ⟨0, none, JSVal.bool true, some 5, [⟨"s1", 0⟩]⟩

/-- A stages list whose pair keys collide: the adjacent pairs
`("a->b", "c")` and `("a", "b->c")` share the key `"a->b->c"`. -/
def cexStages : List String := ["a->b", "c", "a", "b->c"]

/-- A deal reaching stage `"a->b"` at time 0 and `"c"` at time 1. -/
def cexDeal1 : Deal := ⟨0, none, JSVal.null, none, [⟨"a->b", 0⟩, ⟨"c", 1⟩]⟩

/-- A deal reaching only stage `"a"`. -/
def cexDeal2 : Deal := ⟨0, none, JSVal.null, none, [⟨"a", 0⟩]⟩

/-- Two copies of `cexDeal1` and one `cexDeal2`: the colliding key is
incremented twice while only one deal ever reaches `"a"`. -/
def cexDeals : List Deal := [cexDeal1, cexDeal1, cexDeal2]

/-- A stage list where the closed-won aliases match the stage with id 7. -/
def stageListW : List (String × String) := [("7", "closed won stuff"), ("3", "inbox")]

/-- A stage list where no closed-won alias matches. -/
def stageListU : List (String × String) := [("3", "inbox")]

/-- A pipeline none of whose stage labels matches any canonical alias. -/
def pipeW : Pipeline := ⟨"p1", [⟨"9", "zzz"⟩]⟩

/-- A deal reaching `"a"` then `"b"`, won via the string flag. -/
def wDeal1 : Deal := ⟨0, none, JSVal.str "true", some 10, [⟨"a", 0⟩, ⟨"b", 5⟩]⟩

/-- A deal reaching only `"b"`. -/
def wDeal2 : Deal := ⟨3, some "p", JSVal.null, none, [⟨"b", 3⟩]⟩

/-! ### General helper lemmas about the dictionary folds -/

theorem strTruthy_iff (s : String) : strTruthy s = true ↔ s ≠ "" := by
  simp [strTruthy]

theorem foldl_updateCount_apply (l : List String) (m : String → Nat) (k : String) :
    (l.foldl updateCount m) k = m k + l.count k := by
  induction l generalizing m with
  | nil => simp
  | cons a t ih =>
    rw [List.foldl_cons, ih, List.count_cons]
    unfold updateCount
    by_cases hk : k = a
    · simp [hk]; omega
    · have hbk : ¬(a == k) = true := by
        simp only [beq_iff_eq]; exact fun h => hk h.symm
      simp [hk, hbk]

theorem foldl_guarded_count {α : Type} (l : List α) (c : α → Bool) (key : α → String)
    (m : String → Nat) (k : String) :
    (l.foldl (fun acc a => if c a then updateCount acc (key a) else acc) m) k
      = m k + l.countP (fun a => c a && (key a == k)) := by
  induction l generalizing m with
  | nil => simp
  | cons a t ih =>
    rw [List.foldl_cons, ih, List.countP_cons]
    by_cases hc : c a
    · simp only [hc, if_true]
      unfold updateCount
      by_cases hk : k = key a
      · simp [hk]; omega
      · have hbk : ¬(key a == k) = true := by
          simp only [beq_iff_eq]; exact fun h => hk h.symm
        simp [hk, hbk, hc]
    · simp [hc]

theorem countP_guard_beq {α : Type} [BEq α] [LawfulBEq α] (l : List α) (c : α → Bool) (k : α) :
    l.countP (fun a => c a && (a == k)) = if c k then l.count k else 0 := by
  induction l with
  | nil => simp
  | cons a t ih =>
    rw [List.countP_cons, List.count_cons, ih]
    by_cases hk : a = k
    · subst hk; by_cases hc : c a <;> simp [hc]
    · have hbk : (a == k) = false := beq_eq_false_iff_ne.mpr hk
      simp [hbk, hk]

theorem sum_ite_one {α : Type} (l : List α) (p : α → Bool) :
    (l.map (fun a => if p a then (1 : Nat) else 0)).sum = l.countP p := by
  induction l with
  | nil => simp
  | cons a t ih => by_cases h : p a <;> simp [List.countP_cons, h, ih, Nat.add_comm]

theorem sum_map_ite_filter {α : Type} (l : List α) (p : α → Bool) (f : α → ℚ) :
    (l.map (fun a => if p a then f a else 0)).sum = ((l.filter p).map f).sum := by
  induction l with
  | nil => simp
  | cons a t ih => by_cases h : p a <;> simp [List.filter_cons, h, ih]

theorem foldl_setKey_origin {α β : Type} (l : List α) (key : α → String) (val : α → β)
    (m0 : String → Option β) (k : String) (e : β)
    (h : (l.foldl (fun m a => setKey m (key a) (val a)) m0) k = some e) :
    (∃ a ∈ l, val a = e) ∨ m0 k = some e := by
  induction l generalizing m0 with
  | nil => exact Or.inr h
  | cons a t ih =>
    rw [List.foldl_cons] at h
    rcases ih _ h with h1 | h1
    · obtain ⟨b, hb, hv⟩ := h1
      exact Or.inl ⟨b, List.mem_cons_of_mem _ hb, hv⟩
    · unfold setKey at h1
      by_cases hk : k = key a
      · simp [hk] at h1
        exact Or.inl ⟨a, List.mem_cons_self _ _, h1⟩
      · simp [hk] at h1
        exact Or.inr h1

theorem count_adjPairs_le (l : List String) (s s1 : String) :
    (adjPairs l).count (s, s1) ≤ l.count s := by
  induction l with
  | nil => simp [adjPairs]
  | cons a t ih =>
    cases t with
    | nil => simp [adjPairs]
    | cons b t2 =>
      rw [show adjPairs (a :: b :: t2) = (a, b) :: adjPairs (b :: t2) from rfl,
        List.count_cons, List.count_cons]
      have hle : (if ((a, b) == (s, s1)) = true then (1 : Nat) else 0)
          ≤ (if (a == s) = true then (1 : Nat) else 0) := by
        by_cases hab : (a, b) = (s, s1)
        · have ha : a = s := by rw [Prod.mk.injEq] at hab; exact hab.1
          simp [hab, ha]
          split <;> omega
        · simp [hab]
      have := ih
      omega

theorem min?_eq_some_int (l : List Int) (a : Int) :
    l.min? = some a ↔ a ∈ l ∧ ∀ b ∈ l, a ≤ b :=
  have : Std.Antisymm (fun x1 x2 : Int => x1 ≤ x2) := ⟨@le_antisymm Int _⟩
  List.min?_eq_some_iff (fun _ => le_refl _) (fun a b => min_choice a b) (fun _ _ _ => le_min_iff)

theorem find?_eq_head?_filter {α : Type} (p : α → Bool) (l : List α) :
    l.find? p = (l.filter p).head? := by
  induction l with
  | nil => rfl
  | cons a t ih =>
    by_cases h : p a
    · rw [List.find?_cons_of_pos _ h, List.filter_cons_of_pos h]
      rfl
    · rw [List.find?_cons_of_neg _ h, List.filter_cons_of_neg (by simpa using h), ih]

/-! ### Closed forms of the computeStats accumulator -/

theorem statsStep_reached (w : String) (st : StatsState) (d : Deal) (k : String) :
    (statsStep w st d).reached k
      = st.reached k + (if dealActive d && (histValues d).contains k then 1 else 0) := by
  unfold statsStep dealActive
  by_cases he : d.dealstage_history.isEmpty
  · simp [he]
  · by_cases hw : isWonDeal w d <;>
      simp [he, hw, foldl_updateCount_apply, everList, List.count_dedup, histValues]

theorem statsStep_wonAfter (w : String) (st : StatsState) (d : Deal) (k : String) :
    (statsStep w st d).wonAfter k
      = st.wonAfter k
        + (if dealActive d && isWonDeal w d && (histValues d).contains k then 1 else 0) := by
  unfold statsStep dealActive
  by_cases he : d.dealstage_history.isEmpty
  · simp [he]
  · by_cases hw : isWonDeal w d <;>
      simp [he, hw, foldl_updateCount_apply, everList, List.count_dedup, histValues]

theorem statsStep_wonCount (w : String) (st : StatsState) (d : Deal) :
    (statsStep w st d).wonCount
      = st.wonCount + (if dealActive d && isWonDeal w d then 1 else 0) := by
  unfold statsStep dealActive
  by_cases he : d.dealstage_history.isEmpty
  · simp [he]
  · by_cases hw : isWonDeal w d <;> simp [he, hw]

theorem statsStep_wonSum (w : String) (st : StatsState) (d : Deal) :
    (statsStep w st d).wonSum
      = st.wonSum
        + (if dealActive d && isWonDeal w d && decide (0 < amt d) then amt d else 0) := by
  unfold statsStep dealActive
  by_cases he : d.dealstage_history.isEmpty
  · simp [he]
  · by_cases hw : isWonDeal w d
    · by_cases ha : (0 : ℚ) < amt d <;> simp [he, hw, ha]
    · simp [he, hw]

theorem foldl_statsStep_reached (w : String) (deals : List Deal) (st : StatsState) (k : String) :
    (deals.foldl (statsStep w) st).reached k
      = st.reached k + deals.countP (fun d => dealActive d && (histValues d).contains k) := by
  induction deals generalizing st with
  | nil => simp
  | cons d t ih =>
    rw [List.foldl_cons, ih, List.countP_cons, statsStep_reached]
    omega

theorem foldl_statsStep_wonAfter (w : String) (deals : List Deal) (st : StatsState) (k : String) :
    (deals.foldl (statsStep w) st).wonAfter k
      = st.wonAfter k
        + deals.countP (fun d => dealActive d && isWonDeal w d && (histValues d).contains k) := by
  induction deals generalizing st with
  | nil => simp
  | cons d t ih =>
    rw [List.foldl_cons, ih, List.countP_cons, statsStep_wonAfter]
    omega

theorem foldl_statsStep_wonCount (w : String) (deals : List Deal) (st : StatsState) :
    (deals.foldl (statsStep w) st).wonCount
      = st.wonCount + deals.countP (fun d => dealActive d && isWonDeal w d) := by
  induction deals generalizing st with
  | nil => simp
  | cons d t ih =>
    rw [List.foldl_cons, ih, List.countP_cons, statsStep_wonCount]
    omega

theorem foldl_statsStep_wonSum (w : String) (deals : List Deal) (st : StatsState) :
    (deals.foldl (statsStep w) st).wonSum
      = st.wonSum
        + (deals.map (fun d =>
            if dealActive d && isWonDeal w d && decide (0 < amt d) then amt d else 0)).sum := by
  induction deals generalizing st with
  | nil => simp
  | cons d t ih =>
    rw [List.foldl_cons, ih, List.map_cons, List.sum_cons, statsStep_wonSum]
    ring

theorem computeStatsCore_reached (w : String) (deals : List Deal) (k : String) :
    (computeStatsCore w deals).reached k
      = deals.countP (fun d => dealActive d && (histValues d).contains k) := by
  unfold computeStatsCore
  rw [foldl_statsStep_reached]
  simp

theorem computeStatsCore_wonAfter (w : String) (deals : List Deal) (k : String) :
    (computeStatsCore w deals).wonAfter k
      = deals.countP (fun d => dealActive d && isWonDeal w d && (histValues d).contains k) := by
  unfold computeStatsCore
  rw [foldl_statsStep_wonAfter]
  simp

theorem computeStatsCore_wonCount (w : String) (deals : List Deal) :
    (computeStatsCore w deals).wonCount
      = deals.countP (fun d => dealActive d && isWonDeal w d) := by
  unfold computeStatsCore
  rw [foldl_statsStep_wonCount]
  simp

theorem computeStatsCore_wonSum (w : String) (deals : List Deal) :
    (computeStatsCore w deals).wonSum
      = (deals.map (fun d =>
          if dealActive d && isWonDeal w d && decide (0 < amt d) then amt d else 0)).sum := by
  unfold computeStatsCore
  rw [foldl_statsStep_wonSum]
  ring

/-! ### Closed forms of the computeProgression counters -/

theorem reachedStep_apply (stages : List String) (m : String → Nat) (d : Deal) (k : String) :
    (reachedStep stages m d) k
      = m k + stages.countP (fun s => (reachedSetOf d).contains s && (s == k)) :=
  foldl_guarded_count stages _ (fun s => s) m k

theorem progStep_apply (stages : List String) (m : String → Nat) (d : Deal) (k : String) :
    (progStep stages m d) k
      = m k + (adjPairs stages).countP
          (fun p => progressedCond d p.1 p.2 && (pairKey p.1 p.2 == k)) :=
  foldl_guarded_count (adjPairs stages) _ (fun p => pairKey p.1 p.2) m k

theorem reachedCountsF_apply (stages : List String) (deals : List Deal) (k : String) :
    reachedCountsF stages deals k
      = (deals.map (fun d =>
          stages.countP (fun s => (reachedSetOf d).contains s && (s == k)))).sum := by
  unfold reachedCountsF
  have h : ∀ (m : String → Nat),
      (deals.foldl (reachedStep stages) m) k
        = m k + (deals.map (fun d =>
            stages.countP (fun s => (reachedSetOf d).contains s && (s == k)))).sum := by
    induction deals with
    | nil => simp
    | cons d t ih =>
      intro m
      rw [List.foldl_cons, ih, reachedStep_apply, List.map_cons, List.sum_cons]
      omega
  rw [h]
  simp

theorem progressedCountsF_apply (stages : List String) (deals : List Deal) (k : String) :
    progressedCountsF stages deals k
      = (deals.map (fun d => (adjPairs stages).countP
          (fun p => progressedCond d p.1 p.2 && (pairKey p.1 p.2 == k)))).sum := by
  unfold progressedCountsF
  have h : ∀ (m : String → Nat),
      (deals.foldl (progStep stages) m) k
        = m k + (deals.map (fun d => (adjPairs stages).countP
            (fun p => progressedCond d p.1 p.2 && (pairKey p.1 p.2 == k)))).sum := by
    induction deals with
    | nil => simp
    | cons d t ih =>
      intro m
      rw [List.foldl_cons, ih, progStep_apply, List.map_cons, List.sum_cons]
      omega
  rw [h]
  simp

/-! ### The sorted history and its first-occurrence timestamps -/

theorem histPairs_fst (d : Deal) : (histPairs d).map Prod.fst = histValues d := by
  unfold histPairs histValues
  rw [List.map_map]
  rfl

theorem mem_reachedSetOf (d : Deal) (s : String) :
    s ∈ reachedSetOf d ↔ s ∈ histValues d := by
  unfold reachedSetOf sortedHist
  rw [((List.perm_insertionSort histLe (histPairs d)).map Prod.fst).mem_iff, histPairs_fst]

theorem firstTs_sortedHist (d : Deal) (s : String) :
    firstTs (sortedHist d) s = earliestStageTs d s := by
  unfold firstTs earliestStageTs sortedHist
  rw [find?_eq_head?_filter]
  have hsort : List.Sorted histLe (List.insertionSort histLe (histPairs d)) :=
    List.sorted_insertionSort histLe (histPairs d)
  have hperm : ((List.insertionSort histLe (histPairs d)).filter (fun h => h.1 == s)).Perm
      ((histPairs d).filter (fun h => h.1 == s)) :=
    (List.perm_insertionSort histLe (histPairs d)).filter _
  have hsf : List.Sorted histLe
      ((List.insertionSort histLe (histPairs d)).filter (fun h => h.1 == s)) :=
    hsort.filter _
  cases hF : (List.insertionSort histLe (histPairs d)).filter (fun h => h.1 == s) with
  | nil =>
    have : (histPairs d).filter (fun h => h.1 == s) = [] := by
      rw [hF] at hperm
      exact hperm.symm.eq_nil
    rw [this]
    rfl
  | cons x t =>
    rw [hF] at hperm hsf
    have hmin : (((histPairs d).filter (fun h => h.1 == s)).map Prod.snd).min? = some x.2 := by
      rw [min?_eq_some_int]
      constructor
      · exact List.mem_map_of_mem Prod.snd (hperm.mem_iff.mp (List.mem_cons_self x t))
      · intro b hb
        obtain ⟨y, hy, hyb⟩ := List.mem_map.mp hb
        have hyx : y ∈ x :: t := hperm.mem_iff.mpr hy
        rcases List.mem_cons.mp hyx with h1 | h1
        · rw [← hyb, h1]
        · rw [← hyb]
          exact (List.pairwise_cons.mp hsf).1 y h1
    rw [hmin]
    rfl

theorem progressedCond_firstTs (d : Deal) (s s1 : String) :
    progressedCond d s s1 = true ↔
      ∃ a b, firstTs (sortedHist d) s = some a ∧ firstTs (sortedHist d) s1 = some b ∧ a < b := by
  unfold progressedCond
  cases h1 : firstTs (sortedHist d) s <;> cases h2 : firstTs (sortedHist d) s1 <;>
    simp

theorem progressedCond_contains (d : Deal) (s s1 : String)
    (h : progressedCond d s s1 = true) : (reachedSetOf d).contains s = true := by
  obtain ⟨a, _, ha, _, _⟩ := (progressedCond_firstTs d s s1).mp h
  unfold firstTs at ha
  obtain ⟨p, hp⟩ := Option.map_eq_some'.mp ha
  have hmem := List.mem_of_find?_eq_some hp.1
  have hpred := List.find?_some hp.1
  have : s ∈ reachedSetOf d := by
    unfold reachedSetOf
    rw [show s = p.1 from (beq_iff_eq.mp hpred).symm]
    exact List.mem_map_of_mem Prod.fst hmem
  simpa using this

/-! ### Bounds for the progression and completion probabilities -/

theorem progressed_le_reached (stages : List String) (deals : List Deal)
    (hinj : KeyInj stages) (q : String × String) (hq : q ∈ adjPairs stages) :
    progressedCountsF stages deals (pairKey q.1 q.2) ≤ reachedCountsF stages deals q.1 := by
  rw [progressedCountsF_apply, reachedCountsF_apply]
  apply List.sum_le_sum
  intro d _
  have hcongr : (adjPairs stages).countP
        (fun p => progressedCond d p.1 p.2 && (pairKey p.1 p.2 == pairKey q.1 q.2))
      = (adjPairs stages).countP (fun p => progressedCond d p.1 p.2 && (p == q)) := by
    apply List.countP_congr
    intro p hp
    simp only [Bool.and_eq_true, beq_iff_eq]
    constructor
    · rintro ⟨hc, hk⟩
      exact ⟨hc, hinj p hp q hq hk⟩
    · rintro ⟨hc, hk⟩
      exact ⟨hc, by rw [hk]⟩
  rw [hcongr, countP_guard_beq, countP_guard_beq]
  by_cases hc : progressedCond d q.1 q.2
  · have hcont : (reachedSetOf d).contains q.1 = true := progressedCond_contains d q.1 q.2 hc
    rw [if_pos hc, if_pos hcont]
    calc (adjPairs stages).count q = (adjPairs stages).count (q.1, q.2) := by rw [Prod.mk.eta]
      _ ≤ stages.count q.1 := count_adjPairs_le stages q.1 q.2
  · rw [if_neg hc]
    exact Nat.zero_le _

theorem edgeFor_from_reached (stages : List String) (deals : List Deal) (s s1 : String) :
    (edgeFor stages deals s s1).from_reached = reachedCountsF stages deals s := rfl

theorem edgeFor_progressed (stages : List String) (deals : List Deal) (s s1 : String) :
    (edgeFor stages deals s s1).progressed = progressedCountsF stages deals (pairKey s s1) := rfl

theorem edgeFor_p_advance (stages : List String) (deals : List Deal) (s s1 : String) :
    (edgeFor stages deals s s1).p_advance
      = if reachedCountsF stages deals s = 0 then 0
        else (progressedCountsF stages deals (pairKey s s1) : ℚ)
          / (reachedCountsF stages deals s : ℚ) := rfl

theorem edgeFor_bounds (stages : List String) (deals : List Deal)
    (hinj : KeyInj stages) (q : String × String) (hq : q ∈ adjPairs stages) :
    (edgeFor stages deals q.1 q.2).progressed ≤ (edgeFor stages deals q.1 q.2).from_reached ∧
    0 ≤ (edgeFor stages deals q.1 q.2).p_advance ∧
    (edgeFor stages deals q.1 q.2).p_advance ≤ 1 := by
  have hle := progressed_le_reached stages deals hinj q hq
  rw [edgeFor_from_reached, edgeFor_progressed, edgeFor_p_advance]
  refine ⟨hle, ?_, ?_⟩
  · by_cases hr : reachedCountsF stages deals q.1 = 0
    · simp [hr]
    · rw [if_neg hr]
      positivity
  · by_cases hr : reachedCountsF stages deals q.1 = 0
    · simp [hr]
    · have hpos : (0 : ℚ) < (reachedCountsF stages deals q.1 : ℚ) := by
        exact_mod_cast Nat.pos_of_ne_zero hr
      rw [if_neg hr, div_le_one hpos]
      exact_mod_cast hle

theorem completionFor_reached (w : String) (deals : List Deal) (aw : ℚ) (s : String) :
    (completionFor w deals aw s).reached = (computeStatsCore w deals).reached s := rfl

theorem completionFor_wonAfter (w : String) (deals : List Deal) (aw : ℚ) (s : String) :
    (completionFor w deals aw s).wonAfter = (computeStatsCore w deals).wonAfter s := rfl

theorem completionFor_p_win (w : String) (deals : List Deal) (aw : ℚ) (s : String) :
    (completionFor w deals aw s).p_win
      = if (computeStatsCore w deals).reached s = 0 then 0
        else ((computeStatsCore w deals).wonAfter s : ℚ)
          / ((computeStatsCore w deals).reached s : ℚ) := rfl

theorem completionFor_euro (w : String) (deals : List Deal) (aw : ℚ) (s : String) :
    (completionFor w deals aw s).euro_value = aw * (completionFor w deals aw s).p_win := rfl

theorem completionFor_bounds (w : String) (deals : List Deal) (aw : ℚ) (s : String) :
    (completionFor w deals aw s).wonAfter ≤ (completionFor w deals aw s).reached ∧
    0 ≤ (completionFor w deals aw s).p_win ∧
    (completionFor w deals aw s).p_win ≤ 1 := by
  have hle : (computeStatsCore w deals).wonAfter s ≤ (computeStatsCore w deals).reached s := by
    rw [computeStatsCore_wonAfter, computeStatsCore_reached]
    apply List.countP_mono_left
    intro d _ h
    simp only [Bool.and_eq_true] at h ⊢
    exact ⟨h.1.1, h.2⟩
  rw [completionFor_reached, completionFor_wonAfter, completionFor_p_win]
  refine ⟨hle, ?_, ?_⟩
  · by_cases hr : (computeStatsCore w deals).reached s = 0
    · simp [hr]
    · rw [if_neg hr]
      positivity
  · by_cases hr : (computeStatsCore w deals).reached s = 0
    · simp [hr]
    · have hpos : (0 : ℚ) < ((computeStatsCore w deals).reached s : ℚ) := by
        exact_mod_cast Nat.pos_of_ne_zero hr
      rw [if_neg hr, div_le_one hpos]
      exact_mod_cast hle

/-! ### Permutation invariance -/

attribute [ext] StatsState StatsOutput

theorem computeStatsCore_perm (w : String) {deals deals' : List Deal}
    (h : deals.Perm deals') : computeStatsCore w deals = computeStatsCore w deals' := by
  ext k
  · rw [computeStatsCore_reached, computeStatsCore_reached]
    exact h.countP_eq _
  · rw [computeStatsCore_wonAfter, computeStatsCore_wonAfter]
    exact h.countP_eq _
  · rw [computeStatsCore_wonCount, computeStatsCore_wonCount]
    exact h.countP_eq _
  · rw [computeStatsCore_wonSum, computeStatsCore_wonSum]
    exact (h.map _).sum_eq

theorem reachedCountsF_perm (stages : List String) {deals deals' : List Deal}
    (h : deals.Perm deals') : reachedCountsF stages deals = reachedCountsF stages deals' := by
  funext k
  rw [reachedCountsF_apply, reachedCountsF_apply]
  exact (h.map _).sum_eq

theorem progressedCountsF_perm (stages : List String) {deals deals' : List Deal}
    (h : deals.Perm deals') :
    progressedCountsF stages deals = progressedCountsF stages deals' := by
  funext k
  rw [progressedCountsF_apply, progressedCountsF_apply]
  exact (h.map _).sum_eq

theorem edgeFor_perm (stages : List String) {deals deals' : List Deal}
    (h : deals.Perm deals') : edgeFor stages deals = edgeFor stages deals' := by
  funext s s1
  unfold edgeFor
  rw [reachedCountsF_perm stages h, progressedCountsF_perm stages h]

theorem avgWonOf_perm (w : String) {deals deals' : List Deal}
    (h : deals.Perm deals') : avgWonOf w deals = avgWonOf w deals' := by
  funext o
  unfold avgWonOf
  rw [computeStatsCore_perm w h]

theorem completionFor_perm (w : String) {deals deals' : List Deal}
    (h : deals.Perm deals') : completionFor w deals = completionFor w deals' := by
  funext aw s
  unfold completionFor
  rw [computeStatsCore_perm w h]

/-! ### Claim theorems -/

theorem avgWonOf_none (w : String) (deals : List Deal) :
    avgWonOf w deals none
      = (if (computeStatsCore w deals).wonCount = 0 then 0
         else (computeStatsCore w deals).wonSum / ((computeStatsCore w deals).wonCount : ℚ)) :=
  rfl

theorem wonSum_eq_spec (wonStage : String) (deals : List Deal) :
    (computeStatsCore wonStage deals).wonSum = wonSumSpec wonStage deals := by
  rw [computeStatsCore_wonSum]
  exact sum_map_ite_filter deals _ amt

theorem wonCount_eq_all (wonStage : String) (deals : List Deal) :
    (computeStatsCore wonStage deals).wonCount = wonCountAll wonStage deals := by
  rw [computeStatsCore_wonCount, List.countP_eq_length_filter]
  rfl

/-- C1 (amended): `wonSum` ranges only over the won deals (with non-empty
history) whose amount is positive, but `wonCount` counts every won deal with
non-empty history regardless of amount, and `avgWon` (without override) is
`wonSum / wonCount` over those two different populations — `0` when there is
no won deal at all. A zero-amount won deal is therefore excluded from the
numerator but still counted in the denominator (and in `wonAfter`, see the
closed form `computeStatsCore_wonAfter`). -/
theorem C1_amended_avgWon (wonStage : String) (deals : List Deal) :
    (computeStatsCore wonStage deals).wonSum = wonSumSpec wonStage deals ∧
    (computeStatsCore wonStage deals).wonCount = wonCountAll wonStage deals ∧
    avgWonOf wonStage deals none
      = (if wonCountAll wonStage deals = 0 then 0
         else wonSumSpec wonStage deals / (wonCountAll wonStage deals : ℚ)) := by
  refine ⟨wonSum_eq_spec wonStage deals, wonCount_eq_all wonStage deals, ?_⟩
  rw [avgWonOf_none, wonSum_eq_spec, wonCount_eq_all]

/-- C1 (counterexample): two won deals, one of amount 100 and one of amount
0. The code computes `avgWon = 100 / 2 = 50`, while the claim (numerator
and denominator both over the won deals with positive amount) demands
`100 / 1 = 100`. -/
theorem C1_counterexample :
    avgWonOf "w" [dealA, dealB] none = 50 ∧
    wonSumSpec "w" [dealA, dealB] = 100 ∧
    posWonCount "w" [dealA, dealB] = 1 ∧
    avgWonOf "w" [dealA, dealB] none
      ≠ wonSumSpec "w" [dealA, dealB] / (posWonCount "w" [dealA, dealB] : ℚ) := by
  have hc : (computeStatsCore "w" [dealA, dealB]).wonCount = 2 := rfl
  have hs : (computeStatsCore "w" [dealA, dealB]).wonSum = (0 : ℚ) + 100 := rfl
  have hws : wonSumSpec "w" [dealA, dealB] = 100 := by
    have h0 : wonSumSpec "w" [dealA, dealB] = (100 : ℚ) + 0 := rfl
    rw [h0]
    norm_num
  have hpc : posWonCount "w" [dealA, dealB] = 1 := rfl
  have havg : avgWonOf "w" [dealA, dealB] none = 50 := by
    rw [avgWonOf_none, hc, hs]
    norm_num
  refine ⟨havg, hws, hpc, ?_⟩
  rw [havg, hws, hpc]
  norm_num

/-- C2 (amended): a deal is classified as won (counted in `wonCount`) if and
only if it has a non-empty history and either its `hs_is_closed_won`
property is strictly equal to the string `'true'` or its set of stages ever
reached contains `wonStage`. A flag carried in any other representation
(boolean `true`, `'True'`, …) does not count through the flag signal. -/
theorem C2_amended_wonClassification (wonStage : String) (deals : List Deal) :
    (computeStatsCore wonStage deals).wonCount
      = (deals.filter (fun d => dealActive d &&
          ((d.hs_is_closed_won == JSVal.str "true")
            || (histValues d).contains wonStage))).length := by
  rw [computeStatsCore_wonCount, List.countP_eq_length_filter]
  rfl

/-- C2 (counterexample): a deal whose `isClosedWon` flag is the boolean
`true` — true as a boolean flag, which the spec's data model declares it to
be — and whose history never contains the won stage is not classified as
won by the code, because the code only recognises the exact string
`'true'`. -/
theorem C2_counterexample :
    flagIsTrue dealBool.hs_is_closed_won = true ∧
    (histValues dealBool).contains "w" = false ∧
    (computeStatsCore "w" [dealBool]).wonCount = 0 :=
  ⟨rfl, rfl, rfl⟩

/-- C3: for every deal and stage pair, the progression test of
`computeProgression` (first occurrences in the timestamp-sorted history)
fires exactly when both stages appear in the raw history and the earliest
timestamp at which the later stage appears is strictly greater than the
earliest timestamp at which the earlier stage appears. -/
theorem C3_progressed_iff_earliest (d : Deal) (s s1 : String) :
    progressedCond d s s1 = true ↔
      ∃ a b, earliestStageTs d s = some a ∧ earliestStageTs d s1 = some b ∧ a < b := by
  rw [progressedCond_firstTs, firstTs_sortedHist, firstTs_sortedHist]

/-- C4 (amended): provided the pair keys of the adjacent stage pairs do not
collide (`KeyInj`, true in particular whenever no stage id contains the
substring `"->"`), every record of the `progression` output has
`progressed ≤ from_reached` and `p_advance ∈ [0, 1]`, and every record of
the `completion` output has `wonAfter ≤ reached` and `p_win ∈ [0, 1]`; a
zero reach count yields probability 0 by construction. -/
theorem C4_amended_probabilities_in_unit_interval (stages : List String) (deals : List Deal)
    (wonStage : String) (aw : ℚ) (hinj : KeyInj stages) :
    (∀ k e, progressionDict stages deals k = some e →
        e.progressed ≤ e.from_reached ∧ 0 ≤ e.p_advance ∧ e.p_advance ≤ 1) ∧
    (∀ k c, completionDict stages wonStage deals aw k = some c →
        c.wonAfter ≤ c.reached ∧ 0 ≤ c.p_win ∧ c.p_win ≤ 1) := by
  constructor
  · intro k e hk
    unfold progressionDict at hk
    rcases foldl_setKey_origin (adjPairs stages) (fun p => pairKey p.1 p.2)
        (fun p => edgeFor stages deals p.1 p.2) emptyDict k e hk with ⟨p, hp, hv⟩ | habs
    · rw [← hv]
      exact edgeFor_bounds stages deals hinj p hp
    · exact absurd habs (by simp [emptyDict])
  · intro k c hk
    unfold completionDict at hk
    rcases foldl_setKey_origin stages (fun s => s)
        (fun s => completionFor wonStage deals aw s) emptyDict k c hk with ⟨s, _, hv⟩ | habs
    · rw [← hv]
      exact completionFor_bounds wonStage deals aw s
    · exact absurd habs (by simp [emptyDict])

/-- C4 (counterexample): with the colliding stage list
`["a->b", "c", "a", "b->c"]` and three deals, the output dictionary holds,
at the shared key `"a->b->c"`, the record for the pair `("a", "b->c")`,
whose `p_advance` is `2 / 1 = 2 > 1` — a probability outside `[0, 1]`. -/
theorem C4_counterexample :
    progressionDict cexStages cexDeals (pairKey "a" "b->c")
        = some (edgeFor cexStages cexDeals "a" "b->c") ∧
    ("a", "b->c") ∈ adjPairs cexStages ∧
    1 < (edgeFor cexStages cexDeals "a" "b->c").p_advance := by
  refine ⟨rfl, by decide, ?_⟩
  have h1 : reachedCountsF cexStages cexDeals "a" = 1 := rfl
  have h2 : progressedCountsF cexStages cexDeals (pairKey "a" "b->c") = 2 := rfl
  rw [edgeFor_p_advance, h1, h2]
  norm_num

theorem C4_witness :
    progressionDict ["a", "b"] [wDeal1] (pairKey "a" "b")
        = some (edgeFor ["a", "b"] [wDeal1] "a" "b") ∧
    0 ≤ (edgeFor ["a", "b"] [wDeal1] "a" "b").p_advance ∧
    (edgeFor ["a", "b"] [wDeal1] "a" "b").p_advance ≤ 1 := by
  have h := (C4_amended_probabilities_in_unit_interval ["a", "b"] [wDeal1] "w" 0
      (by decide)).1 (pairKey "a" "b") (edgeFor ["a", "b"] [wDeal1] "a" "b") rfl
  exact ⟨rfl, h.2.1, h.2.2⟩

theorem mappedStages_mem_ne (stageList : List (String × String)) (fo : List String)
    (am : List (String × List String)) :
    ∀ x ∈ mappedStages stageList fo am, x ≠ "" := by
  intro x hx
  unfold mappedStages at hx
  obtain ⟨key, _, hf⟩ := List.mem_filterMap.mp hx
  cases hfind : findIdByAliases stageList ((am.lookup key).getD [key]) with
  | none => rw [hfind] at hf; cases hf
  | some id =>
    rw [hfind] at hf
    have hf' : (if strTruthy id = true then some id else none) = some x := hf
    by_cases ht : strTruthy id
    · rw [if_pos ht] at hf'
      have hxi : x = id := (Option.some_inj.mp hf').symm
      rw [hxi]
      exact (strTruthy_iff id).mp ht
    · rw [if_neg ht] at hf'
      cases hf'

/-- C5: when the closedwon canonical entry resolves to a (truthy) stage id
`c`, the returned stages list is the mapped list with every occurrence of
`c` removed and `c` appended as the final element, and `wonStage` is `c`;
when it does not resolve (no match, or the matched id is the falsy `""`,
which the source's truthiness guards treat as unresolved), the returned
stages list is the mapped list unchanged and `wonStage` is its last
element. -/
theorem C5_closedwon_placement (stageList : List (String × String)) (fo : List String)
    (am : List (String × List String)) :
    (∀ c, closedWonIdOf stageList am = some c → strTruthy c = true →
        resolveCore stageList fo am
          = ((mappedStages stageList fo am).filter (fun s => s ≠ c) ++ [c], some c)) ∧
    ((closedWonIdOf stageList am = none ∨ closedWonIdOf stageList am = some "") →
        resolveCore stageList fo am
          = (mappedStages stageList fo am, (mappedStages stageList fo am).getLast?)) := by
  constructor
  · intro c hc ht
    unfold resolveCore
    simp only [hc, ht, if_true]
  · intro hc
    have hfil : (mappedStages stageList fo am).filter (fun s => s ≠ "")
        = mappedStages stageList fo am := by
      rw [List.filter_eq_self]
      intro a ha
      simpa using mappedStages_mem_ne stageList fo am a ha
    rcases hc with hc | hc
    · unfold resolveCore
      simp only [hc]
    · unfold resolveCore
      simp only [hc, strTruthy, show (("" : String) == "") = true from rfl, Bool.not_true,
        Bool.false_eq_true, if_false]
      exact Prod.ext (by exact hfil) (by rw [hfil])

theorem C5_witness :
    resolveCore stageListW FRIENDLY_ORDER DEFAULT_ALIASES
        = ((mappedStages stageListW FRIENDLY_ORDER DEFAULT_ALIASES).filter (fun s => s ≠ "7")
            ++ ["7"], some "7") ∧
    resolveCore stageListU FRIENDLY_ORDER DEFAULT_ALIASES
        = (mappedStages stageListU FRIENDLY_ORDER DEFAULT_ALIASES,
           (mappedStages stageListU FRIENDLY_ORDER DEFAULT_ALIASES).getLast?) :=
  ⟨(C5_closedwon_placement stageListW FRIENDLY_ORDER DEFAULT_ALIASES).1 "7"
      (by decide) (by decide),
   (C5_closedwon_placement stageListU FRIENDLY_ORDER DEFAULT_ALIASES).2 (Or.inl (by decide))⟩

/-- C6: `resolveStages` fails (with the configuration error) if and only if
no pipeline definition is found: either a (truthy) identifier was given and
no pipeline in the catalog carries it, or no identifier was given (null or
the falsy `""`) and the catalog is empty. In every other case — including
pipelines whose labels match no alias — it returns normally. -/
theorem C6_error_iff_no_pipeline (pipelines : List Pipeline) (pid : Option String)
    (fo : List String) (am : List (String × List String)) :
    resolveStages pipelines pid fo am = .error "No deal pipeline found for stage resolution" ↔
      ((∃ v, pid = some v ∧ v ≠ "" ∧ ∀ p ∈ pipelines, p.id ≠ v) ∨
       ((pid = none ∨ pid = some "") ∧ pipelines = [])) := by
  unfold resolveStages selectPipe
  cases pid with
  | none =>
    cases pipelines with
    | nil => simp
    | cons p t => simp
  | some v =>
    dsimp only
    by_cases hv : strTruthy v
    · have hv' : v ≠ "" := (strTruthy_iff v).mp hv
      rw [if_pos hv]
      cases hfind : pipelines.find? (fun p => p.id = v) with
      | none =>
        simp only [hfind]
        constructor
        · intro _
          refine Or.inl ⟨v, rfl, hv', fun p hp => ?_⟩
          have := List.find?_eq_none.mp hfind p hp
          simpa using this
        · intro _
          trivial
      | some p =>
        simp only [hfind]
        constructor
        · intro habs
          cases habs
        · rintro (⟨v2, hv2, _, hall⟩ | ⟨hcase, _⟩)
          · have hmem := List.mem_of_find?_eq_some hfind
            have hid : p.id = v := by simpa using List.find?_some hfind
            have hv2' : v2 = v := by
              injection hv2 with h
              exact h.symm
            exact absurd hid (by rw [hv2'] at hall; exact hall p hmem)
          · rcases hcase with h | h
            · cases h
            · injection h with h
              exact absurd h hv'
    · have hv' : v = "" := by
        by_contra hne
        exact hv ((strTruthy_iff v).mpr hne)
      rw [if_neg hv]
      subst hv'
      cases pipelines with
      | nil => simp
      | cons p t => simp

/-- C7: the cohort sequence contains exactly the deals of the upstream
pages whose `createdate` lies in the closed interval `[start, stop]` and,
when a (truthy) pipeline identifier is supplied, whose `pipeline` property
strictly equals it. -/
theorem C7_cohort_membership (pages : List (List Deal)) (start stop : Int)
    (pipeline : Option String) (d : Deal) :
    d ∈ dealsCohort pages start stop pipeline ↔
      (d ∈ pages.flatten ∧ start ≤ d.createdate ∧ d.createdate ≤ stop ∧
       (optTruthy pipeline = true → d.pipeline = pipeline)) := by
  have hfold : ∀ (acc : List Deal),
      pages.foldl (fun acc page => acc ++ page.filter (cohortKeep start stop pipeline)) acc
        = acc ++ pages.flatten.filter (cohortKeep start stop pipeline) := by
    induction pages with
    | nil => intro acc; simp
    | cons pg t ih =>
      intro acc
      rw [List.foldl_cons, ih]
      simp [List.filter_append]
  unfold dealsCohort
  rw [hfold, List.nil_append, List.mem_filter]
  unfold cohortKeep
  simp only [Bool.and_eq_true, Bool.or_eq_true, Bool.not_eq_true', decide_eq_true_eq,
    beq_iff_eq, and_assoc]
  constructor
  · rintro ⟨h1, h2, h3, h4⟩
    refine ⟨h1, h2, h3, fun ht => ?_⟩
    rcases h4 with h4 | h4
    · rw [ht] at h4; cases h4
    · exact h4
  · rintro ⟨h1, h2, h3, h4⟩
    refine ⟨h1, h2, h3, ?_⟩
    cases ht : optTruthy pipeline with
    | false => exact Or.inl rfl
    | true => exact Or.inr (h4 ht)

/-- C8: permuting the input deal list changes nothing in the output of
`computeStats` — `avgWon`, `reached`, `wonAfter`, `completion`,
`progression` and `stageLoss` are all invariant, for any stages list,
won stage and override. -/
theorem C8_perm_invariant (stages : List String) (wonStage : String) (aw : Option ℚ)
    {deals deals' : List Deal} (h : deals.Perm deals') :
    computeStats deals stages wonStage aw = computeStats deals' stages wonStage aw := by
  have h1 := computeStatsCore_perm wonStage h
  have h2 := avgWonOf_perm wonStage h
  have h3 := completionFor_perm wonStage h
  have h4 := edgeFor_perm stages h
  unfold computeStats completionDict progressionDict stageLossDict
  rw [h1, h2, h3, h4]

theorem C8_witness :
    computeStats [wDeal1, wDeal2] ["a", "b"] "b" none
      = computeStats [wDeal2, wDeal1] ["a", "b"] "b" none :=
  C8_perm_invariant ["a", "b"] "b" none (List.Perm.swap wDeal2 wDeal1 [])

/-- C9: for a duplicate-free stages list and any stage on it, the
`reachedCounts` of `computeProgression` (counted from the sorted history,
empty histories included) agrees with the `reached` map of `computeStats`
(counted from the raw history, empty histories skipped), for every deals
list and any won stage. -/
theorem C9_reached_agree (stages : List String) (deals : List Deal) (wonStage s : String)
    (hnd : stages.Nodup) (hs : s ∈ stages) :
    reachedCountsF stages deals s = (computeStatsCore wonStage deals).reached s := by
  rw [reachedCountsF_apply, computeStatsCore_reached]
  have hcount : stages.count s = 1 := List.count_eq_one_of_mem hnd hs
  have hpt : ∀ d : Deal,
      stages.countP (fun s2 => (reachedSetOf d).contains s2 && (s2 == s))
        = (if dealActive d && (histValues d).contains s then 1 else 0) := by
    intro d
    rw [countP_guard_beq, hcount]
    have hbool : (reachedSetOf d).contains s = (dealActive d && (histValues d).contains s) := by
      by_cases hm : s ∈ histValues d
      · have h1 : (reachedSetOf d).contains s = true := by
          simpa [mem_reachedSetOf] using hm
        have hact : dealActive d = true := by
          unfold dealActive
          cases hd : d.dealstage_history with
          | nil =>
            unfold histValues at hm
            rw [hd] at hm
            simp at hm
          | cons e t => simp
        have h2 : (histValues d).contains s = true := by simpa using hm
        rw [h1, hact, h2]
        rfl
      · have h1 : (reachedSetOf d).contains s = false := by
          simpa [mem_reachedSetOf] using hm
        have h2 : (histValues d).contains s = false := by simpa using hm
        rw [h1, h2, Bool.and_false]
    rw [hbool]
  calc (deals.map (fun d =>
          stages.countP (fun s2 => (reachedSetOf d).contains s2 && (s2 == s)))).sum
      = (deals.map (fun d =>
          if dealActive d && (histValues d).contains s then 1 else 0)).sum := by
        exact congrArg List.sum (List.map_congr_left (fun d _ => hpt d))
    _ = deals.countP (fun d => dealActive d && (histValues d).contains s) :=
        sum_ite_one deals _

theorem C9_witness :
    reachedCountsF ["a", "b"] [wDeal1] "a" = (computeStatsCore "b" [wDeal1]).reached "a" :=
  C9_reached_agree ["a", "b"] [wDeal1] "b" "a" (by decide) (by decide)

/-- C10: when a pipeline is found but none of its stage labels matches any
alias of any canonical entry (nor the closedwon fallback), `resolveStages`
raises no error: it returns an empty stages list and an undefined
(`none`) `wonStage`. -/
theorem C10_unmatched_pipeline_ok (pipelines : List Pipeline) (pid : Option String)
    (fo : List String) (am : List (String × List String)) (pipe : Pipeline)
    (hp : selectPipe pipelines pid = some pipe)
    (hmap : ∀ key ∈ fo,
      findIdByAliases (pipe.stages.map stageEntryOf) ((am.lookup key).getD [key]) = none)
    (hcw : findIdByAliases (pipe.stages.map stageEntryOf)
      ((am.lookup "closedwon").getD ["closedwon"]) = none) :
    resolveStages pipelines pid fo am = .ok ([], none) := by
  unfold resolveStages
  rw [hp]
  have hmapped : mappedStages (pipe.stages.map stageEntryOf) fo am = [] := by
    unfold mappedStages
    rw [List.filterMap_eq_nil_iff]
    intro key hk
    rw [hmap key hk]
  have hcw' : closedWonIdOf (pipe.stages.map stageEntryOf) am = none := hcw
  dsimp only
  unfold resolveCore
  dsimp only
  rw [hcw', hmapped]
  rfl

theorem C10_witness :
    resolveStages [pipeW] none FRIENDLY_ORDER DEFAULT_ALIASES = .ok ([], none) :=
  C10_unmatched_pipeline_ok [pipeW] none FRIENDLY_ORDER DEFAULT_ALIASES pipeW rfl
    (by decide) (by decide)

end PipelineProbs
